import Mathlib

/-!
# Athens storage layer: minio catalog pagination, fs delete, config permission check

A shallow embedding of

* `pkg/storage/minio/cataloger.go` (`Catalog`, `fetchModsAndVersions`, `parseMinioKey`),
* `pkg/storage/fs/deleter.go` (`Delete`),
* `pkg/config/parse.go` (`checkFilePerms`, `ParseConfigFile`),

together with the parts of the Go standard library (`strings`) they call.
Go strings are modelled as lists of characters; a loop that may run forever
carries an explicit fuel argument and reports `Outcome.outOfFuel` when it is
used up; a Go runtime panic is an explicit result.
-/

namespace Athens

/-- A Go string, as the sequence of its characters. -/
abbrev GoString := List Char

/-! ## Go standard library: package strings -/

namespace strings

/-- Go `strings.HasPrefix`: `len(s) >= len(p) && s[:len(p)] == p`. -/
def HasPrefix (s p : GoString) : Bool :=
  decide (s.length ≥ p.length) && (s.take p.length == p)

/-- Go `strings.HasSuffix`: `len(s) >= len(suffix) && s[len(s)-len(suffix):] == suffix`. -/
def HasSuffix (s suffix : GoString) : Bool :=
  decide (s.length ≥ suffix.length) && (s.drop (s.length - suffix.length) == suffix)

/-- Go `strings.Index`: index of the first instance of `substr` in `s`;
`none` stands for the result `-1`. -/
def Index : GoString → GoString → Option Nat
  | [], substr => if substr = [] then some 0 else none
  | c :: cs, substr =>
    if HasPrefix (c :: cs) substr then some 0 else (Index cs substr).map (· + 1)

/-- The loop of Go `strings.Count` for a non-empty `substr`:
`for { i := Index(s, substr); if i == -1 { return n }; n++; s = s[i+len(substr):] }`.
Every round removes at least one character, so `len(s)` rounds are enough. -/
def countLoop (substr : GoString) : Nat → GoString → Nat → Nat
  | 0, _, n => n
  | fuel + 1, s, n =>
    match Index s substr with
    | none => n
    | some i => countLoop substr fuel (s.drop (i + substr.length)) (n + 1)

/-- Go `strings.Count`: number of non-overlapping instances of `substr` in `s`
(one more than the number of characters when `substr` is empty). -/
def Count (s substr : GoString) : Nat :=
  if substr = [] then s.length + 1 else countLoop substr s.length s 0

/-- The loop of Go `genSplit` for a non-empty separator:
`for i < n { m := Index(s, sep); if m < 0 { break }; a[i] = s[:m]; s = s[m+len(sep):]; i++ }; a[i] = s`. -/
def splitLoop (sep : GoString) : Nat → GoString → List GoString
  | 0, s => [s]
  | k + 1, s =>
    match Index s sep with
    | none => [s]
    | some m => s.take m :: splitLoop sep k (s.drop (m + sep.length))

/-- Go `strings.Split(s, sep)`, that is `genSplit(s, sep, 0, -1)`: the loop runs
at most `Count(s, sep)` times. An empty separator explodes `s` into characters. -/
def Split (s sep : GoString) : List GoString :=
  if sep = [] then s.map (fun c => [c]) else splitLoop sep (Count s sep) s

/-- The loop of Go `strings.Replace` for a non-empty `old`:
`for i := 0; i < n; i++ { j := start + Index(s[start:], old); write s[start:j]; write new; start = j + len(old) }`
followed by `write s[start:]`. -/
def replaceLoop (old new : GoString) : Nat → GoString → GoString
  | 0, s => s
  | k + 1, s =>
    match Index s old with
    | none => s
    | some j => s.take j ++ new ++ replaceLoop old new k (s.drop (j + old.length))

/-- The loop of Go `strings.Replace` for an empty `old`, after its first round:
`new` is written after each of the next characters. -/
def replaceEmptyLoop (new : GoString) : Nat → GoString → GoString
  | 0, s => s
  | _ + 1, [] => []
  | k + 1, c :: cs => c :: (new ++ replaceEmptyLoop new k cs)

/-- Go `strings.Replace(s, old, new, n)`; a negative `n` means no limit. -/
def Replace (s old new : GoString) (n : Int) : GoString :=
  if old = new ∨ n = 0 then s
  else
    let m := Count s old
    if m = 0 then s
    else
      let n := if n < 0 ∨ (m : Int) < n then m else n.toNat
      if old = [] then new ++ replaceEmptyLoop new (n - 1) s
      else replaceLoop old new n s

end strings

/-! ## Package errors -/

namespace errors

/-- Error kinds of `pkg/errors`. -/
inductive Kind where
  | KindNotFound
  | KindBadRequest
  | KindUnexpected
  | KindAlreadyExists
  deriving DecidableEq, Repr

/-- Modelled from the spec: the error value of `pkg/errors`, the package of
`errors.E`, `errors.M`, `errors.V` and the error kinds. An error is either a plain message
(`errors.New`, or a failure reported by an external collaborator) or an
annotated error carrying the operation name, the module and version involved,
a kind, and the wrapped cause. -/
inductive Error where
  | New (text : GoString)
  | Annotated (Op : GoString) (Module Version : GoString) (Kind : Option Kind)
      (Err : Option Error)

/-- An argument of the variadic `errors.E`. -/
inductive Arg where
  | err (e : Error)
  | str (s : GoString)
  | M (module : GoString)
  | V (version : GoString)
  | kind (k : Kind)

/-- One round of the `switch a := a.(type)` loop of `errors.E`. -/
def applyArg : Error → Arg → Error
  | .Annotated op m v k _, .err e => .Annotated op m v k (some e)
  | .Annotated op m v k _, .str s => .Annotated op m v k (some (.New s))
  | .Annotated op _ v k c, .M m => .Annotated op m v k c
  | .Annotated op m _ k c, .V v => .Annotated op m v k c
  | .Annotated op m v _ c, .kind k => .Annotated op m v (some k) c
  | e, _ => e

/-- Modelled from the spec: `errors.E(op, args...)` builds an error annotated
with the operation and with whatever the arguments say (cause, module,
version, kind). -/
def E (op : GoString) (args : List Arg) : Error :=
  args.foldl applyArg (.Annotated op [] [] none none)

end errors

/-- Result of running a Go function body on the model. -/
inductive Outcome (α : Type) where
  /-- the function returned `a` -/
  | ret (a : α)
  /-- the function stopped with a runtime panic -/
  | panic
  /-- the loop was still running when the fuel was used up -/
  | outOfFuel

/-! ## pkg/storage/minio/cataloger.go -/

namespace minio

open strings

/-- The part of `minio.ObjectInfo` the cataloger reads. -/
structure ObjectInfo where
  Key : GoString
  deriving DecidableEq, Repr

/-- The part of `minio.ListBucketV2Result` the cataloger reads. -/
structure ListBucketV2Result where
  Contents : List ObjectInfo
  IsTruncated : Bool
  deriving DecidableEq, Repr

/-- Go `paths.AllPathParams`. -/
structure AllPathParams where
  Module : GoString
  Version : GoString
  deriving DecidableEq, Repr

/-- The native list primitive `minioCore.ListObjectsV2(bucket, "", "", false, "", 0, startAfter)`
as `Catalog` uses it: the answer may depend on the number of calls already made
during this `Catalog` call and on `startAfter`. -/
abbrev ListObjectsV2 := Nat → GoString → Except errors.Error ListBucketV2Result

/-- Go `parseMinioKey`. `none` is the runtime panic of `parts[1]` (index out of
range) when the key holds no `/@v/`. -/
def parseMinioKey (o : ObjectInfo) : Option (Except errors.Error AllPathParams) :=
  let parts := Split o.Key "/@v/".toList
  match parts with
  | m :: v :: _ =>
    let v := Replace v ".info".toList [] (-1)
    if m = [] ∨ v = [] then
      some (.error (errors.E "minio.parseMinioKey".toList [.str "cannot extract version".toList]))
    else some (.ok { Module := m, Version := v })
  | _ => none

/-- The `for _, o := range objects` loop of `fetchModsAndVersions`, with the
values of `elementsNum`, `res` and `lastKey` at the start of a round; `none` is
a runtime panic. `elementsNum` is a Go `int`; it is only counted down, by one
per accepted object, so it does not wrap around. -/
def fetchLoop : List ObjectInfo → Int → List AllPathParams → GoString →
    Option (List AllPathParams × GoString)
  | [], _, res, lastKey => some (res, lastKey)
  | o :: os, elementsNum, res, lastKey =>
    if !HasSuffix o.Key ".info".toList then fetchLoop os elementsNum res lastKey
    else
      match parseMinioKey o with
      | none => none
      | some (.error _) => fetchLoop os elementsNum res lastKey
      | some (.ok p) =>
        if elementsNum - 1 = 0 then some (res ++ [p], o.Key)
        else fetchLoop os (elementsNum - 1) (res ++ [p]) o.Key

/-- Go `fetchModsAndVersions`; `none` is a runtime panic. -/
def fetchModsAndVersions (objects : List ObjectInfo) (elementsNum : Int) :
    Option (List AllPathParams × GoString) :=
  fetchLoop objects elementsNum [] []

/-- The `for count > 0` loop of `Catalog`, with the values of `res`, `count`
and `queryToken` at the loop head; `i` counts the native calls made so far.
`startAfter` is not assigned in the loop. -/
def catalogLoop (list : ListObjectsV2) (startAfter : GoString) :
    Nat → Nat → List AllPathParams → Int → GoString →
    Outcome (Except errors.Error (List AllPathParams × GoString))
  | 0, _, res, count, queryToken =>
    if count > 0 then .outOfFuel else .ret (.ok (res, queryToken))
  | fuel + 1, i, res, count, queryToken =>
    if count > 0 then
      match list i startAfter with
      | .error err => .ret (.error (errors.E "minio.Catalog".toList [.err err]))
      | .ok loo =>
        match fetchModsAndVersions loo.Contents count with
        | none => .panic
        | some (m, lastKey) =>
          if !loo.IsTruncated then
            .ret (.ok (res ++ m, if count - (m.length : Int) > 0 then [] else lastKey))
          else catalogLoop list startAfter fuel (i + 1) (res ++ m) (count - m.length) lastKey
    else .ret (.ok (res, queryToken))

/-- Go `(*storageImpl).Catalog`, run with `fuel` rounds of its loop. The
tracing span and the `fmt.Println` of the Go function do not touch the result
and are left out. On an error of the native call the Go function returns
`nil, "", err`, here `.error err`. -/
def Catalog (list : ListObjectsV2) (fuel : Nat) (token : GoString) (pageSize : Int) :
    Outcome (Except errors.Error (List AllPathParams × GoString)) :=
  catalogLoop list token fuel 0 [] pageSize token

/-- Modelled from the spec: the order in which the native listing returns
object keys (character by character, a proper initial segment first). -/
def keyLt : GoString → GoString → Bool
  | _, [] => false
  | [], _ :: _ => true
  | a :: as, b :: bs => decide (a.toNat < b.toNat) || (a == b && keyLt as bs)

/-- Modelled from the spec: a native "list one batch" primitive over a store
whose keys are `keys` (in listing order). It answers with the keys strictly
after `startAfter`, at most `maxKeys` of them, and reports `IsTruncated` when
it left some out. -/
def listStore (maxKeys : Nat) (keys : List GoString) : ListObjectsV2 :=
  fun _ startAfter =>
    .ok { Contents := ((keys.filter (fun k => keyLt startAfter k)).take maxKeys).map ObjectInfo.mk
          IsTruncated := decide (maxKeys < (keys.filter (fun k => keyLt startAfter k)).length) }

/-- Modelled from the spec: the caller's protocol "call `Catalog("", pageSize)`
and then `Catalog(previous nextCursor, pageSize)` until `nextCursor == ""`".
The result lists the pages in the order of the calls; `none` when a call does
not return a page or when `calls` calls were not enough. -/
def catalogChain (list : ListObjectsV2) (fuel : Nat) (pageSize : Int) :
    Nat → GoString → Option (List (List AllPathParams × GoString))
  | 0, _ => none
  | calls + 1, cursor =>
    match Catalog list fuel cursor pageSize with
    | .ret (.ok (res, next)) =>
      if next = [] then some [(res, next)]
      else (catalogChain list fuel pageSize calls next).map (fun rest => (res, next) :: rest)
    | _ => none

/-- The key `module/@v/version.info` of a version descriptor. -/
def infoKey (module version : GoString) : GoString :=
  module ++ "/@v/".toList ++ version ++ ".info".toList

/-- The version name `v1`, `v2`, ... -/
def versionName (i : Nat) : GoString := 'v' :: Nat.toDigits 10 i

/-- A store with three versions of module `m`. -/
def storeThree : List GoString :=
  ["m/@v/v1.info".toList, "m/@v/v2.info".toList, "m/@v/v3.info".toList]

/-- A store with two versions of module `m`, each with its `.mod` and `.zip`. -/
def storeSiblings : List GoString :=
  ["m/@v/v1.info".toList, "m/@v/v1.mod".toList, "m/@v/v1.zip".toList,
   "m/@v/v2.info".toList, "m/@v/v2.mod".toList, "m/@v/v2.zip".toList]

/-- The entry a version-descriptor object decodes to; `none` for an object
that `fetchModsAndVersions` passes over. -/
def decodeInfo (o : ObjectInfo) : Option AllPathParams :=
  if HasSuffix o.Key ".info".toList then
    match parseMinioKey o with
    | some (.ok p) => some p
    | _ => none
  else none

/-- The value of `lastKey` after the objects `os` were accepted in turn. -/
def lastKeyOf : GoString → List ObjectInfo → GoString
  | lk, [] => lk
  | _, o :: os => lastKeyOf o.Key os

/-- The test `strings.HasSuffix(o.Key, ".info")` of `fetchModsAndVersions`. -/
def isInfo (o : ObjectInfo) : Bool := HasSuffix o.Key ".info".toList

/-- Five versions of module `m`, each with its `.mod` and `.zip`, in listing
order. -/
def storeFive : List GoString :=
  ["m/@v/v1.info".toList, "m/@v/v1.mod".toList, "m/@v/v1.zip".toList,
   "m/@v/v2.info".toList, "m/@v/v2.mod".toList, "m/@v/v2.zip".toList,
   "m/@v/v3.info".toList, "m/@v/v3.mod".toList, "m/@v/v3.zip".toList,
   "m/@v/v4.info".toList, "m/@v/v4.mod".toList, "m/@v/v4.zip".toList,
   "m/@v/v5.info".toList, "m/@v/v5.mod".toList, "m/@v/v5.zip".toList]

end minio

/-! ## pkg/storage/fs/deleter.go -/

namespace fs

/-- The collaborators of `fs.Delete`: `versionLocation` and `Exists` of the
same package and `RemoveAll` of the filesystem handle, over a filesystem
state `σ`. Each call hands back the state it leaves. -/
structure storageImpl (σ : Type) where
  versionLocation : GoString → GoString → GoString
  Exists : σ → GoString → GoString → (Bool × Option errors.Error) × σ
  RemoveAll : σ → GoString → Option errors.Error × σ

/-- Go `(*storageImpl).Delete`: the returned error (`none` is `nil`) and the
filesystem state left behind. -/
def Delete {σ : Type} (v : storageImpl σ) (s : σ) (module version : GoString) :
    Option errors.Error × σ :=
  let versionedPath := v.versionLocation module version
  match v.Exists s module version with
  | ((_, some err), s1) =>
    (some (errors.E "fs.Delete".toList [.err err, .M module, .V version]), s1)
  | ((false, none), s1) =>
    (some (errors.E "fs.Delete".toList [.M module, .V version, .kind .KindNotFound]), s1)
  | ((true, none), s1) => v.RemoveAll s1 versionedPath

/-- A filesystem state for the examples: the list of version directories. -/
def listImpl : storageImpl (List GoString) where
  versionLocation := fun module version => module ++ '/' :: version
  Exists := fun s module version => ((decide (module ++ '/' :: version ∈ s), none), s)
  RemoveAll := fun s path => (none, s.filter (fun q => q ≠ path))

/-- An implementation whose existence check fails. -/
def failingImpl : storageImpl (List GoString) where
  versionLocation := fun module version => module ++ '/' :: version
  Exists := fun s _ _ => ((false, some (.New "stat failed".toList)), s)
  RemoveAll := fun s path => (none, s.filter (fun q => q ≠ path))

end fs

/-! ## pkg/config/parse.go -/

namespace config

/-- Go `os.FileMode`: type bits and permission bits of a file in one number. -/
abbrev FileMode := Nat

/-- Go `os.ModeDir`. -/
def ModeDir : FileMode := 2 ^ 31

/-- Go `FileMode.Perm`: the permission bits. -/
def FileMode.Perm (m : FileMode) : FileMode := m &&& 0o777

/-- The operating system calls of `checkFilePerms`: `os.Open` (its error) and
`os.Lstat` (the mode of the file, or an error). -/
structure OS where
  Open : GoString → Option errors.Error
  Lstat : GoString → Except errors.Error FileMode

/-- Go `checkFilePerms`; `none` is the `nil` error. -/
def checkFilePerms (os : OS) : List GoString → Option errors.Error
  | [] => none
  | f :: files =>
    if f = [] then checkFilePerms os files
    else
      match os.Open f with
      | some _ => checkFilePerms os files
      | none =>
        match os.Lstat f with
        | .error err => some (errors.E "config.checkFilePerms".toList [.err err])
        | .ok mode =>
          if mode ≠ 0o600 then
            some (errors.E "config.checkFilePerms".toList
              [.str (f ++ " should have 0660 as permission".toList)])
          else checkFilePerms os files

/-- The steps of `ParseConfigFile` that leave this package or work on fields
of `Config` other than `FilterFile`, over a configuration type `C`. -/
structure Steps (C : Type) where
  FilterFile : C → GoString
  DecodeFile : GoString → Except errors.Error C
  envOverride : C → Except errors.Error C
  setRuntimeDefaults : C → C
  setStorageTimeouts : C → C
  deleteInvalidStorageConfigs : C → C
  validateConfig : C → Option errors.Error

/-- Go `ParseConfigFile`: the configuration, or the error with no
configuration. -/
def ParseConfigFile {C : Type} (st : Steps C) (os : OS) (configFile : GoString) :
    Except errors.Error C :=
  match st.DecodeFile configFile with
  | .error err => .error err
  | .ok config =>
    match checkFilePerms os [st.FilterFile config] with
    | some err => .error err
    | none =>
      match st.envOverride config with
      | .error err => .error err
      | .ok config =>
        let config := st.deleteInvalidStorageConfigs
          (st.setStorageTimeouts (st.setRuntimeDefaults config))
        match st.validateConfig config with
        | some err => .error err
        | none => .ok config

/-- A system where every path can be opened and is a directory with
permission bits `0600`. -/
def dirOS : OS where
  Open := fun _ => none
  Lstat := fun _ => .ok (ModeDir ||| 0o600)

/-- A system where every path is a file with permission bits `0200`, which
cannot be opened for reading. -/
def lockedOS : OS where
  Open := fun _ => some (.New "permission denied".toList)
  Lstat := fun _ => .ok 0o200

/-- A system with a single file `filter.conf`, of mode `0600`, which can be
read; other paths do not exist. -/
def strictOS : OS where
  Open := fun f => if f = "filter.conf".toList then none else some (.New "no such file".toList)
  Lstat := fun f =>
    if f = "filter.conf".toList then .ok 0o600 else .error (.New "no such file".toList)

end config

end Athens

namespace Athens.minio

open Athens.strings

/-! ## Lemmas on `fetchModsAndVersions` and the `Catalog` loop -/

theorem fetchLoop_length (objs : List ObjectInfo) :
    ∀ (n : Int) (res : List AllPathParams) (lk : GoString) (r : List AllPathParams)
      (k : GoString), 0 < n → fetchLoop objs n res lk = some (r, k) →
      (r.length : Int) ≤ res.length + n := by
  induction objs with
  | nil =>
    intro n res lk r k hn h
    simp only [fetchLoop, Option.some.injEq, Prod.mk.injEq] at h
    obtain ⟨rfl, _⟩ := h
    omega
  | cons o os ih =>
    intro n res lk r k hn h
    unfold fetchLoop at h
    split at h
    · exact ih n res lk r k hn h
    · split at h
      · exact absurd h (by simp)
      · exact ih n res lk r k hn h
      · split at h
        · simp only [Option.some.injEq, Prod.mk.injEq] at h
          obtain ⟨rfl, _⟩ := h
          simp only [List.length_append, List.length_singleton, Nat.cast_add, Nat.cast_one]
          omega
        · have := ih (n - 1) _ _ r k (by omega) h
          simp only [List.length_append, List.length_singleton, Nat.cast_add, Nat.cast_one] at this
          omega

theorem fetchModsAndVersions_length (objs : List ObjectInfo) (n : Int)
    (r : List AllPathParams) (k : GoString) (hn : 0 < n)
    (h : fetchModsAndVersions objs n = some (r, k)) : (r.length : Int) ≤ n := by
  have := fetchLoop_length objs n [] [] r k hn h
  simpa using this

theorem catalogLoop_length (list : ListObjectsV2) (startAfter : GoString) (fuel : Nat) :
    ∀ (i : Nat) (res : List AllPathParams) (count : Int) (qt : GoString)
      (r : List AllPathParams) (c : GoString), 0 ≤ count →
      catalogLoop list startAfter fuel i res count qt = .ret (.ok (r, c)) →
      (r.length : Int) ≤ res.length + count ∧
        ((r.length : Int) < res.length + count → c = []) := by
  induction fuel with
  | zero =>
    intro i res count qt r c hc h
    unfold catalogLoop at h
    split at h
    · exact absurd h (by simp)
    · simp only [Outcome.ret.injEq, Except.ok.injEq, Prod.mk.injEq] at h
      obtain ⟨rfl, _⟩ := h
      constructor <;> omega
  | succ fuel ih =>
    intro i res count qt r c hc h
    unfold catalogLoop at h
    split at h
    · rename_i hpos
      split at h
      · exact absurd h (by simp)
      · split at h
        · exact absurd h (by simp)
        · rename_i loo _ m lastKey hf
          have hm := fetchModsAndVersions_length _ _ _ _ hpos hf
          split at h
          · simp only [Outcome.ret.injEq, Except.ok.injEq, Prod.mk.injEq] at h
            obtain ⟨rfl, rfl⟩ := h
            simp only [List.length_append, Nat.cast_add]
            constructor
            · omega
            · intro hlt
              rw [if_pos (by omega)]
          · have := ih (i + 1) (res ++ m) (count - m.length) lastKey r c (by omega) h
            simp only [List.length_append, Nat.cast_add] at this
            constructor
            · omega
            · intro hlt
              exact this.2 (by omega)
    · simp only [Outcome.ret.injEq, Except.ok.injEq, Prod.mk.injEq] at h
      obtain ⟨rfl, _⟩ := h
      constructor <;> omega

/-! ## Page size, cursor of a short page, and runs of the code on small stores -/


/-- C3 (page size bound): for every native list primitive, start token and
`pageSize ≥ 1`, a `Catalog` call that returns without error returns at most
`pageSize` entries. -/
theorem Catalog_page_size_bound (list : ListObjectsV2) (fuel : Nat) (token : GoString)
    (pageSize : Int) (res : List AllPathParams) (cursor : GoString) (hp : 1 ≤ pageSize)
    (h : Catalog list fuel token pageSize = .ret (.ok (res, cursor))) :
    (res.length : Int) ≤ pageSize := by
  have := (catalogLoop_length list token fuel 0 [] pageSize token res cursor (by omega) h).1
  simpa using this

/-- Witness for C3: a two-entry page of the three-version store. -/
theorem Catalog_page_size_bound_witness :
    (1 : Int) ≤ 2 ∧
    Catalog (listStore 1000 storeThree) 1 [] 2 =
      .ret (.ok ([⟨"m".toList, "v1".toList⟩, ⟨"m".toList, "v2".toList⟩], "m/@v/v2.info".toList)) ∧
    ((([⟨"m".toList, "v1".toList⟩, ⟨"m".toList, "v2".toList⟩] :
      List AllPathParams).length : Nat) : Int) ≤ 2 :=
  ⟨by decide, rfl,
    Catalog_page_size_bound (listStore 1000 storeThree) 1 [] 2 _ "m/@v/v2.info".toList
      (by decide) rfl⟩

/-- C10, as stated, fails: no native list primitive, start token and
`pageSize ≥ 1` make `Catalog` return, without error, a page with fewer than
`pageSize` entries and a non-empty cursor. -/
theorem Catalog_no_short_page_with_cursor :
    ¬ ∃ (list : ListObjectsV2) (fuel : Nat) (token : GoString) (pageSize : Int)
        (res : List AllPathParams) (cursor : GoString),
        1 ≤ pageSize ∧ Catalog list fuel token pageSize = .ret (.ok (res, cursor)) ∧
        (res.length : Int) < pageSize ∧ cursor ≠ [] := by
  rintro ⟨list, fuel, token, pageSize, res, cursor, hp, h, hlt, hne⟩
  have := (catalogLoop_length list token fuel 0 [] pageSize token res cursor (by omega) h).2
  exact hne (this (by simpa using hlt))

/-- C10 (amended): whenever `Catalog` returns a page without error, for
`pageSize ≥ 1`, the page is full (exactly `pageSize` entries) or the returned
cursor is empty; a short page never carries a live cursor. -/
theorem Catalog_full_page_or_empty_cursor (list : ListObjectsV2) (fuel : Nat)
    (token : GoString) (pageSize : Int) (res : List AllPathParams) (cursor : GoString)
    (hp : 1 ≤ pageSize) (h : Catalog list fuel token pageSize = .ret (.ok (res, cursor))) :
    (res.length : Int) = pageSize ∨ cursor = [] := by
  have := catalogLoop_length list token fuel 0 [] pageSize token res cursor (by omega) h
  simp only [List.length_nil, Nat.cast_zero, zero_add] at this
  by_cases hlt : (res.length : Int) < pageSize
  · exact Or.inr (this.2 hlt)
  · exact Or.inl (by omega)

/-- Witness for the amended C10: a short last page with an empty cursor. -/
theorem Catalog_full_page_or_empty_cursor_witness :
    (1 : Int) ≤ 2 ∧
    Catalog (listStore 1000 storeThree) 1 "m/@v/v2.info".toList 2 =
      .ret (.ok ([⟨"m".toList, "v3".toList⟩], [])) ∧
    (((([⟨"m".toList, "v3".toList⟩] : List AllPathParams).length : Nat) : Int) = 2 ∨
      ([] : GoString) = []) :=
  ⟨by decide, rfl,
    Catalog_full_page_or_empty_cursor (listStore 1000 storeThree) 1 "m/@v/v2.info".toList 2
      _ [] (by decide) rfl⟩

/-- C6 (the code at the failing input): a key that ends in `.info` and holds no
`/@v/` makes `parseMinioKey`, and with it `fetchModsAndVersions`, stop with a
runtime panic, also when the batch holds decodable keys; keys that hold the
delimiter and decode to an empty module or version are skipped and do not
count. -/
theorem fetchModsAndVersions_panics_without_delimiter :
    parseMinioKey ⟨"foo.info".toList⟩ = none ∧
    fetchModsAndVersions [⟨"foo.info".toList⟩, ⟨"m/@v/v1.info".toList⟩] 1 = none ∧
    fetchModsAndVersions
      [⟨"/@v/v1.info".toList⟩, ⟨"m/@v/.info".toList⟩, ⟨"m/@v/v1.info".toList⟩] 1 =
      some ([⟨"m".toList, "v1".toList⟩], "m/@v/v1.info".toList) := by
  refine ⟨rfl, by decide, by decide⟩

/-- C5 (the code at the failing input): on the three-version store listed two
keys at a time, `Catalog("", 3)` lists the first batch twice (`startAfter` stays
at the start token) and returns `v1` twice in one page. -/
theorem Catalog_replays_truncated_batch :
    Catalog (listStore 2 storeThree) 4 [] 3 =
      .ret (.ok ([⟨"m".toList, "v1".toList⟩, ⟨"m".toList, "v2".toList⟩,
        ⟨"m".toList, "v1".toList⟩], "m/@v/v1.info".toList)) ∧
    ¬ ([⟨"m".toList, "v1".toList⟩, ⟨"m".toList, "v2".toList⟩,
        ⟨"m".toList, "v1".toList⟩] : List AllPathParams).Nodup :=
  ⟨rfl, by decide⟩

/-- C1 (the code at the failing input): on the three-version store listed two
keys at a time, chaining `Catalog` with page size 3 from the empty cursor ends
after two calls that return five entries in total, `v1` and `v2` twice. -/
theorem catalogChain_duplicates_on_truncation :
    catalogChain (listStore 2 storeThree) 4 3 4 [] =
      some [([⟨"m".toList, "v1".toList⟩, ⟨"m".toList, "v2".toList⟩,
              ⟨"m".toList, "v1".toList⟩], "m/@v/v1.info".toList),
            ([⟨"m".toList, "v2".toList⟩, ⟨"m".toList, "v3".toList⟩], [])] := by
  decide

theorem catalogLoop_siblings_outOfFuel (fuel : Nat) :
    ∀ i : Nat, catalogLoop (listStore 2 storeSiblings) "m/@v/v1.info".toList fuel i [] 1
      "m/@v/v1.info".toList = .outOfFuel ∧
    catalogLoop (listStore 2 storeSiblings) "m/@v/v1.info".toList fuel i [] 1 [] =
      .outOfFuel := by
  induction fuel with
  | zero => intro i; exact ⟨rfl, rfl⟩
  | succ fuel ih =>
    intro i
    have h1 : listStore 2 storeSiblings i "m/@v/v1.info".toList =
        .ok ⟨[⟨"m/@v/v1.mod".toList⟩, ⟨"m/@v/v1.zip".toList⟩], true⟩ := by
      rfl
    have h2 : fetchModsAndVersions [⟨"m/@v/v1.mod".toList⟩, ⟨"m/@v/v1.zip".toList⟩] 1 =
        some ([], []) := by decide
    have step : ∀ qt, catalogLoop (listStore 2 storeSiblings) "m/@v/v1.info".toList (fuel + 1)
        i [] 1 qt = catalogLoop (listStore 2 storeSiblings) "m/@v/v1.info".toList fuel
        (i + 1) [] 1 [] := by
      intro qt
      rw [catalogLoop, if_pos (by decide), h1]
      simp only [h2]
      simp
    exact ⟨(step _).trans (ih (i + 1)).2, (step _).trans (ih (i + 1)).2⟩

/-- C7 (the code at the failing input): with the cursor at `m/@v/v1.info` and a
native listing of two keys at a time, the next batch is `v1.mod`, `v1.zip`,
truncated, with no `.info` key; the loop of `Catalog` lists it again and again
and no amount of fuel lets `Catalog` return. -/
theorem Catalog_diverges_on_truncated_batch_without_info (fuel : Nat) :
    Catalog (listStore 2 storeSiblings) fuel "m/@v/v1.info".toList 1 = .outOfFuel :=
  (catalogLoop_siblings_outOfFuel fuel 0).1

end Athens.minio

/-! ## fs.Delete -/

namespace Athens.fs

/-- C8 (`fs.Delete`): when `Exists` answers `false` without error, `Delete`
returns the `fs.Delete` error of kind NotFound carrying the module and the
version, whatever `RemoveAll` is (it is not called), and leaves the state as
`Exists` left it; when `Exists` fails, `Delete` returns that error wrapped with
the operation, module and version, again without `RemoveAll`; when `Exists`
answers `true`, `Delete` is `RemoveAll(versionLocation(module, version))`, its
result unchanged. -/
theorem Delete_cases {σ : Type} (v : storageImpl σ) (s : σ) (module version : GoString) :
    (∀ s1, v.Exists s module version = ((false, none), s1) →
      ∀ r, Delete { v with RemoveAll := r } s module version =
        (some (.Annotated "fs.Delete".toList module version (some .KindNotFound) none), s1)) ∧
    (∀ b err s1, v.Exists s module version = ((b, some err), s1) →
      ∀ r, Delete { v with RemoveAll := r } s module version =
        (some (.Annotated "fs.Delete".toList module version none (some err)), s1)) ∧
    (∀ s1, v.Exists s module version = ((true, none), s1) →
      Delete v s module version = v.RemoveAll s1 (v.versionLocation module version)) := by
  refine ⟨?_, ?_, ?_⟩
  · intro s1 h r
    simp only [Delete, h]
    rfl
  · intro b err s1 h r
    simp only [Delete, h]
    rfl
  · intro s1 h
    simp only [Delete, h]

/-- Witness for C8: a missing version, a failing existence check, and a stored
version that is removed. -/
theorem Delete_cases_witness :
    Delete listImpl ["m/v2".toList] "m".toList "v1".toList =
      (some (.Annotated "fs.Delete".toList "m".toList "v1".toList (some .KindNotFound) none),
        ["m/v2".toList]) ∧
    Delete failingImpl ["m/v1".toList] "m".toList "v1".toList =
      (some (.Annotated "fs.Delete".toList "m".toList "v1".toList none
        (some (.New "stat failed".toList))), ["m/v1".toList]) ∧
    Delete listImpl ["m/v1".toList, "m/v2".toList] "m".toList "v1".toList =
      (none, ["m/v2".toList]) :=
  ⟨(Delete_cases listImpl ["m/v2".toList] "m".toList "v1".toList).1 _ rfl listImpl.RemoveAll,
   (Delete_cases failingImpl ["m/v1".toList] "m".toList "v1".toList).2.1 false _ _ rfl
      failingImpl.RemoveAll,
   ((Delete_cases listImpl ["m/v1".toList, "m/v2".toList] "m".toList "v1".toList).2.2 _
      rfl).trans rfl⟩

end Athens.fs

/-! ## config.checkFilePerms -/

namespace Athens.config

/-- C9, as stated, fails: a path that exists (`Lstat` succeeds), can be opened
and has permission bits exactly `0600`, but is a directory, makes
`checkFilePerms` fail; and a path that exists with permission bits `0200` and
cannot be opened lets it succeed. -/
theorem checkFilePerms_not_perm_bits :
    ¬ (checkFilePerms dirOS ["filter".toList] = none ↔
        ∀ f ∈ ["filter".toList], f ≠ [] →
          ∀ mode, dirOS.Lstat f = .ok mode → FileMode.Perm mode = 0o600) ∧
    ¬ (checkFilePerms lockedOS ["filter".toList] = none ↔
        ∀ f ∈ ["filter".toList], f ≠ [] →
          ∀ mode, lockedOS.Lstat f = .ok mode → FileMode.Perm mode = 0o600) := by
  constructor
  · intro h
    have hr : ∀ f ∈ ["filter".toList], f ≠ [] →
        ∀ mode, dirOS.Lstat f = .ok mode → FileMode.Perm mode = 0o600 := by
      intro f _ _ mode hm
      simp only [dirOS, Except.ok.injEq] at hm
      subst hm
      decide
    have hl := h.2 hr
    simp [checkFilePerms, dirOS, ModeDir] at hl
  · intro h
    have hl : checkFilePerms lockedOS ["filter".toList] = none := by
      simp [checkFilePerms, lockedOS]
    have := h.1 hl "filter".toList (by simp) (by simp) 0o200 rfl
    revert this
    decide

theorem checkFilePerms_eq_none_iff (os : OS) (files : List GoString) :
    checkFilePerms os files = none ↔
      ∀ f ∈ files, f ≠ [] → os.Open f = none → os.Lstat f = .ok 0o600 := by
  induction files with
  | nil => simp [checkFilePerms]
  | cons f files ih =>
    unfold checkFilePerms
    by_cases hf : f = []
    · simp only [hf, if_true, ih, List.mem_cons, forall_eq_or_imp, ne_eq, not_true_eq_false,
        false_implies, true_and]
    · rw [if_neg hf]
      cases ho : os.Open f with
      | some e =>
        simp only [ih, List.mem_cons, forall_eq_or_imp, ho, reduceCtorEq, false_implies,
          implies_true, true_and]
      | none =>
        cases hl : os.Lstat f with
        | error e =>
          simp only [reduceCtorEq, List.mem_cons, forall_eq_or_imp, ne_eq, hf,
            not_false_eq_true, ho, hl, true_implies, false_and]
        | ok mode =>
          by_cases hm : mode = 0o600
          · subst hm
            simp only [ne_eq, not_true_eq_false, if_false, ih, List.mem_cons, forall_eq_or_imp,
              hf, not_false_eq_true, ho, hl, true_implies, true_and]
          · simp only [ne_eq, hm, not_false_eq_true, if_true, reduceCtorEq, List.mem_cons,
              forall_eq_or_imp, hf, ho, hl, true_implies, Except.ok.injEq, false_and]

/-- C9 (amended): `checkFilePerms` succeeds if and only if every non-empty path
that `os.Open` can open has an `os.Lstat` mode (type bits and permission bits
together) equal to `0600`; an empty path and a path that cannot be opened are
skipped; and when the check of the configured filter file fails,
`ParseConfigFile` returns that error and no configuration. -/
theorem checkFilePerms_openable_mode_exact :
    (∀ (os : OS) (files : List GoString),
      checkFilePerms os files = none ↔
        ∀ f ∈ files, f ≠ [] → os.Open f = none → os.Lstat f = .ok 0o600) ∧
    (∀ (os : OS) (files : List GoString), checkFilePerms os ([] :: files) =
      checkFilePerms os files) ∧
    (∀ (os : OS) (f : GoString) (files : List GoString) (e : errors.Error),
      os.Open f = some e → checkFilePerms os (f :: files) = checkFilePerms os files) ∧
    (∀ (C : Type) (st : Steps C) (os : OS) (configFile : GoString) (config : C)
      (err : errors.Error), st.DecodeFile configFile = .ok config →
      checkFilePerms os [st.FilterFile config] = some err →
      ParseConfigFile st os configFile = .error err) := by
  refine ⟨checkFilePerms_eq_none_iff, ?_, ?_, ?_⟩
  · intro os files
    simp [checkFilePerms]
  · intro os f files e ho
    rw [checkFilePerms]
    by_cases hf : f = []
    · simp [hf]
    · simp [hf, ho]
  · intro C st os configFile config err hd hc
    simp only [ParseConfigFile, hd, hc]

/-- Witness for the amended C9: the file `filter.conf` of mode `0600` passes,
together with an empty path and a path that cannot be opened. -/
theorem checkFilePerms_openable_mode_exact_witness :
    checkFilePerms strictOS ["filter.conf".toList, [], "missing".toList] = none :=
  (checkFilePerms_openable_mode_exact.1 strictOS
    ["filter.conf".toList, [], "missing".toList]).2 (by
      intro f hf hne ho
      simp only [List.mem_cons, List.mem_singleton, List.not_mem_nil, or_false] at hf
      rcases hf with rfl | rfl | rfl
      · rfl
      · exact absurd rfl hne
      · exact absurd ho (by simp [strictOS]))

end Athens.config

/-! ## Only version descriptors become catalog entries -/

namespace Athens.minio

open Athens.strings

theorem fetchLoop_accepted (objs : List ObjectInfo) :
    ∀ (n : Int) (res : List AllPathParams) (lk : GoString) (r : List AllPathParams)
      (k : GoString), fetchLoop objs n res lk = some (r, k) →
      ∃ (acc : List ObjectInfo) (m : List AllPathParams),
        acc.Sublist objs ∧ (∀ o ∈ acc, HasSuffix o.Key ".info".toList = true) ∧
        r = res ++ m ∧ List.Forall₂ (fun o e => parseMinioKey o = some (.ok e)) acc m := by
  induction objs with
  | nil =>
    intro n res lk r k h
    simp only [fetchLoop, Option.some.injEq, Prod.mk.injEq] at h
    exact ⟨[], [], List.Sublist.refl _, by simp, by simp [h.1], List.Forall₂.nil⟩
  | cons o os ih =>
    intro n res lk r k h
    unfold fetchLoop at h
    split at h
    · obtain ⟨acc, m, hs, hi, hr, hf⟩ := ih n res lk r k h
      exact ⟨acc, m, hs.cons o, hi, hr, hf⟩
    · rename_i hsuf
      split at h
      · exact absurd h (by simp)
      · obtain ⟨acc, m, hs, hi, hr, hf⟩ := ih n res lk r k h
        exact ⟨acc, m, hs.cons o, hi, hr, hf⟩
      · rename_i p hp
        have hsuf1 : HasSuffix o.Key ".info".toList = true := by simpa using hsuf
        split at h
        · simp only [Option.some.injEq, Prod.mk.injEq] at h
          refine ⟨[o], [p], (List.nil_sublist os).cons₂ o, ?_, h.1.symm, ?_⟩
          · intro q hq
            rw [List.mem_singleton] at hq
            rw [hq]; exact hsuf1
          · exact List.Forall₂.cons hp List.Forall₂.nil
        · obtain ⟨acc, m, hs, hi, hr, hf⟩ := ih (n - 1) (res ++ [p]) o.Key r k h
          refine ⟨o :: acc, p :: m, hs.cons₂ o, ?_, ?_, List.Forall₂.cons hp hf⟩
          · intro q hq
            rcases List.mem_cons.1 hq with rfl | hq
            · exact hsuf1
            · exact hi q hq
          · rw [hr]; simp

theorem catalogLoop_accepted (list : ListObjectsV2) (startAfter : GoString) (fuel : Nat) :
    ∀ (i : Nat) (res : List AllPathParams) (count : Int) (qt : GoString)
      (r : List AllPathParams) (c : GoString),
      catalogLoop list startAfter fuel i res count qt = .ret (.ok (r, c)) →
      ∃ (accs : List (List ObjectInfo)) (m : List AllPathParams), r = res ++ m ∧
        (∀ (j : Nat) (hj : j < accs.length), ∃ loo, list (i + j) startAfter = .ok loo ∧
          (accs.get ⟨j, hj⟩).Sublist loo.Contents) ∧
        (∀ o ∈ accs.flatten, HasSuffix o.Key ".info".toList = true) ∧
        List.Forall₂ (fun o e => parseMinioKey o = some (.ok e)) accs.flatten m := by
  induction fuel with
  | zero =>
    intro i res count qt r c h
    unfold catalogLoop at h
    split at h
    · exact absurd h (by simp)
    · simp only [Outcome.ret.injEq, Except.ok.injEq, Prod.mk.injEq] at h
      exact ⟨[], [], by simp [h.1], by simp, by simp, by simp⟩
  | succ fuel ih =>
    intro i res count qt r c h
    unfold catalogLoop at h
    split at h
    · split at h
      · exact absurd h (by simp)
      · rename_i loo hl
        split at h
        · exact absurd h (by simp)
        · rename_i m1 lastKey hfm
          obtain ⟨acc, m0, hs, hi, hr, hf⟩ := fetchLoop_accepted _ _ _ _ _ _ hfm
          simp only [List.nil_append] at hr
          subst hr
          split at h
          · simp only [Outcome.ret.injEq, Except.ok.injEq, Prod.mk.injEq] at h
            refine ⟨[acc], m1, h.1.symm, ?_, by simpa using hi, by simpa using hf⟩
            intro j hj
            have hj0 : j = 0 := by simpa using hj
            subst hj0
            exact ⟨loo, hl, hs⟩
          · obtain ⟨accs, m, hr, hb, hi2, hf2⟩ := ih (i + 1) (res ++ m1) _ lastKey r c h
            refine ⟨acc :: accs, m1 ++ m, by rw [hr]; simp, ?_, ?_, ?_⟩
            · intro j hj
              cases j with
              | zero => exact ⟨loo, hl, hs⟩
              | succ j =>
                have hj2 : j < accs.length := by simpa using hj
                obtain ⟨loo2, h1, h2⟩ := hb j hj2
                refine ⟨loo2, ?_, h2⟩
                rw [← h1]; congr 1; omega
            · intro o ho
              simp only [List.flatten_cons, List.mem_append] at ho
              rcases ho with ho | ho
              · exact hi o ho
              · exact hi2 o ho
            · simp only [List.flatten_cons]
              exact List.rel_append hf hf2
    · simp only [Outcome.ret.injEq, Except.ok.injEq, Prod.mk.injEq] at h
      exact ⟨[], [], by simp [h.1], by simp, by simp, by simp⟩

/-- C4 (only version descriptors become entries): whatever the native batches
are, the entries returned by `fetchModsAndVersions` are, one for one and in
listing order, the decodings of a sublist of the batch all of whose keys end
in `.info`; and the entries of a page returned by `Catalog` are, one for one
and in order, the decodings of such sublists of the batches of its native
calls. A key that does not end in `.info` contributes no entry. -/
theorem entries_only_from_info_keys :
    (∀ (objs : List ObjectInfo) (n : Int) (res : List AllPathParams) (lastKey : GoString),
      fetchModsAndVersions objs n = some (res, lastKey) →
      ∃ acc : List ObjectInfo, acc.Sublist objs ∧
        (∀ o ∈ acc, HasSuffix o.Key ".info".toList = true) ∧
        List.Forall₂ (fun o e => parseMinioKey o = some (.ok e)) acc res) ∧
    (∀ (list : ListObjectsV2) (fuel : Nat) (token : GoString) (pageSize : Int)
      (res : List AllPathParams) (cursor : GoString),
      Catalog list fuel token pageSize = .ret (.ok (res, cursor)) →
      ∃ accs : List (List ObjectInfo),
        (∀ (j : Nat) (hj : j < accs.length), ∃ loo, list j token = .ok loo ∧
          (accs.get ⟨j, hj⟩).Sublist loo.Contents) ∧
        (∀ o ∈ accs.flatten, HasSuffix o.Key ".info".toList = true) ∧
        List.Forall₂ (fun o e => parseMinioKey o = some (.ok e)) accs.flatten res) ∧
    (∀ (objs : List ObjectInfo) (n : Int),
      (∀ o ∈ objs, HasSuffix o.Key ".info".toList = false) →
      fetchModsAndVersions objs n = some ([], [])) := by
  refine ⟨?_, ?_, ?_⟩
  · intro objs n res lastKey h
    obtain ⟨acc, m, hs, hi, hr, hf⟩ := fetchLoop_accepted objs n [] [] res lastKey h
    simp only [List.nil_append] at hr
    subst hr
    exact ⟨acc, hs, hi, hf⟩
  · intro list fuel token pageSize res cursor h
    obtain ⟨accs, m, hr, hb, hi, hf⟩ :=
      catalogLoop_accepted list token fuel 0 [] pageSize token res cursor h
    simp only [List.nil_append] at hr
    subst hr
    refine ⟨accs, ?_, hi, hf⟩
    intro j hj
    obtain ⟨loo, h1, h2⟩ := hb j hj
    exact ⟨loo, by simpa using h1, h2⟩
  · intro objs n
    unfold fetchModsAndVersions
    generalize ([] : List AllPathParams) = res
    generalize ([] : GoString) = lk
    induction objs with
    | nil => intro _; rfl
    | cons o os ih =>
      intro h
      unfold fetchLoop
      rw [h o (List.mem_cons_self _ _)]
      simp only [Bool.not_false, if_true]
      exact ih (fun q hq => h q (List.mem_cons_of_mem _ hq))

/-- Witness for C4: a batch with a `.mod` and a `.zip` between two `.info`
keys yields the two decoded versions. -/
theorem entries_only_from_info_keys_witness :
    ∃ acc : List ObjectInfo,
      acc.Sublist [⟨"m/@v/v1.info".toList⟩, ⟨"m/@v/v1.mod".toList⟩, ⟨"m/@v/v1.zip".toList⟩,
        ⟨"m/@v/v2.info".toList⟩] ∧
      (∀ o ∈ acc, HasSuffix o.Key ".info".toList = true) ∧
      List.Forall₂ (fun o e => parseMinioKey o = some (.ok e)) acc
        [⟨"m".toList, "v1".toList⟩, ⟨"m".toList, "v2".toList⟩] :=
  entries_only_from_info_keys.1
    [⟨"m/@v/v1.info".toList⟩, ⟨"m/@v/v1.mod".toList⟩, ⟨"m/@v/v1.zip".toList⟩,
      ⟨"m/@v/v2.info".toList⟩] 5 _ "m/@v/v2.info".toList (by decide)

end Athens.minio

/-! ## Lemmas on the `strings` functions -/

namespace Athens.strings

theorem HasSuffix_append (a suf : GoString) : HasSuffix (a ++ suf) suf = true := by
  simp [HasSuffix]

theorem HasPrefix_sep_false (c : Char) (s : GoString) (hs : '@' ∉ s.take 1) :
    HasPrefix (c :: s) ['/', '@', 'v', '/'] = false := by
  cases s with
  | nil => simp [HasPrefix]
  | cons d ds =>
    have hd : ¬ d = '@' := fun h => hs (by simp [h])
    simp [HasPrefix, hd]

/-- No instance of the separator starts inside `a` when `a` has no `@`. -/
theorem Index_sep_append (a b : GoString) (ha : '@' ∉ a) :
    Index (a ++ ['/', '@', 'v', '/'] ++ b) ['/', '@', 'v', '/'] = some a.length := by
  induction a with
  | nil => simp [Index, HasPrefix]
  | cons c cs ih =>
    have hcs : '@' ∉ cs := fun h => ha (List.mem_cons_of_mem _ h)
    have hnp : HasPrefix (c :: (cs ++ ['/', '@', 'v', '/'] ++ b)) ['/', '@', 'v', '/'] = false := by
      apply HasPrefix_sep_false
      cases cs with
      | nil => simp
      | cons d ds =>
        intro h
        apply ha
        simp only [List.cons_append, List.take_succ_cons, List.take_zero,
          List.mem_singleton] at h
        subst h
        simp
    have e : c :: cs ++ ['/', '@', 'v', '/'] ++ b = c :: (cs ++ ['/', '@', 'v', '/'] ++ b) := rfl
    rw [e, Index, hnp, ih hcs]
    rfl

theorem Index_sep_none (s : GoString) (hs : '@' ∉ s) : Index s ['/', '@', 'v', '/'] = none := by
  induction s with
  | nil => simp [Index]
  | cons c cs ih =>
    have hcs : '@' ∉ cs := fun h => hs (List.mem_cons_of_mem _ h)
    have hnp : HasPrefix (c :: cs) ['/', '@', 'v', '/'] = false := by
      apply HasPrefix_sep_false
      intro h
      exact hcs (List.mem_of_mem_take h)
    rw [Index, hnp, ih hcs]
    rfl

theorem Index_info_append (v : GoString) (hv : '.' ∉ v) :
    Index (v ++ ['.', 'i', 'n', 'f', 'o']) ['.', 'i', 'n', 'f', 'o'] = some v.length := by
  induction v with
  | nil => simp [Index, HasPrefix]
  | cons c cs ih =>
    have hcs : '.' ∉ cs := fun h => hv (List.mem_cons_of_mem _ h)
    have hc : ¬ c = '.' := fun h => hv (by simp [h])
    have hnp : HasPrefix (c :: (cs ++ ['.', 'i', 'n', 'f', 'o'])) ['.', 'i', 'n', 'f', 'o'] =
        false := by
      simp [HasPrefix, hc]
    have e : c :: cs ++ ['.', 'i', 'n', 'f', 'o'] = c :: (cs ++ ['.', 'i', 'n', 'f', 'o']) := rfl
    rw [e, Index, hnp, ih hcs]
    rfl

theorem le_countLoop (substr : GoString) (fuel : Nat) :
    ∀ (s : GoString) (n : Nat), n ≤ countLoop substr fuel s n := by
  induction fuel with
  | zero => intro s n; simp [countLoop]
  | succ fuel ih =>
    intro s n
    unfold countLoop
    split
    · exact le_rfl
    · exact le_trans (Nat.le_succ n) (ih _ _)

theorem Count_pos (s substr : GoString) (i : Nat) (hne : substr ≠ [])
    (hs : s ≠ []) (h : Index s substr = some i) : ∃ k, Count s substr = k + 1 := by
  unfold Count
  rw [if_neg hne]
  obtain ⟨k, hk⟩ : ∃ k, s.length = k + 1 := by
    cases s with
    | nil => exact absurd rfl hs
    | cons c cs => exact ⟨cs.length, rfl⟩
  rw [hk, countLoop, h]
  exact ⟨_, (Nat.sub_add_cancel (le_countLoop _ _ _ _)).symm⟩

theorem Split_sep (a b : GoString) (ha : '@' ∉ a) (hb : '@' ∉ b) :
    Split (a ++ ['/', '@', 'v', '/'] ++ b) ['/', '@', 'v', '/'] = [a, b] := by
  have hi := Index_sep_append a b ha
  obtain ⟨k, hk⟩ := Count_pos (a ++ ['/', '@', 'v', '/'] ++ b) ['/', '@', 'v', '/'] a.length
    (by simp) (by simp) hi
  unfold Split
  rw [if_neg (by simp), hk, splitLoop, hi]
  have hd : List.drop (a.length + ['/', '@', 'v', '/'].length)
      (a ++ ['/', '@', 'v', '/'] ++ b) = b := by
    rw [List.append_assoc, List.drop_append, List.drop_append_of_le_length (by simp)]
    simp
  have ht : List.take a.length (a ++ ['/', '@', 'v', '/'] ++ b) = a := by
    rw [List.append_assoc, List.take_left]
  simp only [hd, ht]
  cases k with
  | zero => rfl
  | succ k => rw [splitLoop, Index_sep_none b hb]

theorem Replace_info (v : GoString) (hv : '.' ∉ v) :
    Replace (v ++ ['.', 'i', 'n', 'f', 'o']) ['.', 'i', 'n', 'f', 'o'] [] (-1) = v := by
  have hi := Index_info_append v hv
  obtain ⟨k, hk⟩ := Count_pos (v ++ ['.', 'i', 'n', 'f', 'o']) ['.', 'i', 'n', 'f', 'o']
    v.length (by simp) (by simp) hi
  unfold Replace
  rw [if_neg (by simp)]
  simp only [hk]
  rw [if_neg (by omega), if_pos (Or.inl (by decide)), if_neg (by simp), replaceLoop, hi]
  have hd : List.drop (v.length + ['.', 'i', 'n', 'f', 'o'].length)
      (v ++ ['.', 'i', 'n', 'f', 'o']) = [] := by
    simp
  have ht : List.take v.length (v ++ ['.', 'i', 'n', 'f', 'o']) = v := by
    rw [List.take_left]
  simp only [hd, ht]
  cases k with
  | zero => simp [replaceLoop]
  | succ k => simp [replaceLoop, Index]

theorem digitChar_ne (d : Nat) (hd : d < 10) :
    Nat.digitChar d ≠ '@' ∧ Nat.digitChar d ≠ '.' := by
  interval_cases d <;> decide

theorem toDigitsCore_ne (fuel : Nat) :
    ∀ (n : Nat) (ds : List Char), (∀ c ∈ ds, c ≠ '@' ∧ c ≠ '.') →
      ∀ c ∈ Nat.toDigitsCore 10 fuel n ds, c ≠ '@' ∧ c ≠ '.' := by
  induction fuel with
  | zero => intro n ds h; simpa [Nat.toDigitsCore] using h
  | succ fuel ih =>
    intro n ds h
    have hd := digitChar_ne (n % 10) (Nat.mod_lt _ (by decide))
    have h2 : ∀ c ∈ Nat.digitChar (n % 10) :: ds, c ≠ '@' ∧ c ≠ '.' := by
      intro c hc
      rcases List.mem_cons.1 hc with rfl | hc
      · exact hd
      · exact h c hc
    unfold Nat.toDigitsCore
    simp only
    split
    · exact h2
    · exact ih _ _ h2

end Athens.strings

/-! ## Chaining over an untruncated listing -/

namespace Athens.minio

open Athens.strings

theorem parseMinioKey_infoKey (module version : GoString) (hm : module ≠ [])
    (hma : '@' ∉ module) (hv : version ≠ []) (hva : '@' ∉ version) (hvd : '.' ∉ version) :
    parseMinioKey ⟨infoKey module version⟩ = some (.ok ⟨module, version⟩) := by
  have e1 : "/@v/".toList = ['/', '@', 'v', '/'] := rfl
  have e2 : ".info".toList = ['.', 'i', 'n', 'f', 'o'] := rfl
  have hb : '@' ∉ version ++ ['.', 'i', 'n', 'f', 'o'] := by
    intro h
    rcases List.mem_append.1 h with h | h
    · exact hva h
    · revert h; decide
  have hs := Split_sep module (version ++ ['.', 'i', 'n', 'f', 'o']) hma hb
  unfold parseMinioKey infoKey
  simp only [e1, e2]
  rw [List.append_assoc (module ++ ['/', '@', 'v', '/']), hs]
  simp only [Replace_info version hvd]
  rw [if_neg (by simp [hm, hv])]

theorem versionName_ne (i : Nat) : ∀ c ∈ versionName i, c ≠ '@' ∧ c ≠ '.' := by
  intro c hc
  unfold versionName at hc
  rcases List.mem_cons.1 hc with rfl | hc
  · decide
  · exact toDigitsCore_ne _ _ [] (by simp) c hc

theorem parseMinioKey_versionName (module : GoString) (i : Nat) (hm : module ≠ [])
    (hma : '@' ∉ module) :
    parseMinioKey ⟨infoKey module (versionName i)⟩ = some (.ok ⟨module, versionName i⟩) :=
  parseMinioKey_infoKey module (versionName i) hm hma (by simp [versionName])
    (fun h => (versionName_ne i _ h).1 rfl) (fun h => (versionName_ne i _ h).2 rfl)

theorem HasSuffix_infoKey (module version : GoString) :
    HasSuffix (infoKey module version) ".info".toList = true :=
  HasSuffix_append _ _

theorem keyLt_asymm : ∀ a b : GoString, keyLt a b = true → keyLt b a = false := by
  intro a
  induction a with
  | nil => intro b _; cases b <;> rfl
  | cons x xs ih =>
    intro b h
    cases b with
    | nil => simp [keyLt] at h
    | cons y ys =>
      simp only [keyLt, Bool.or_eq_true, decide_eq_true_eq, Bool.and_eq_true, beq_iff_eq] at h
      simp only [keyLt, Bool.or_eq_false_iff, decide_eq_false_iff_not, Bool.and_eq_false_imp,
        beq_iff_eq]
      rcases h with h | ⟨rfl, h⟩
      · refine ⟨by omega, ?_⟩
        intro e
        rw [e] at h
        omega
      · exact ⟨by omega, fun _ => ih ys h⟩

theorem keyLt_irrefl (a : GoString) : keyLt a a = false := by
  cases h : keyLt a a with
  | false => rfl
  | true => exact (Bool.eq_false_iff.1 (keyLt_asymm a a h) h).elim

theorem keyLt_nil (k : GoString) (hk : k ≠ []) : keyLt [] k = true := by
  cases k with
  | nil => exact absurd rfl hk
  | cons c cs => rfl

/-- In a list sorted by `keyLt`, the keys after an element are the rest of the
list behind it. -/
theorem filter_keyLt_sorted (A B : List GoString) (x : GoString)
    (h : (A ++ x :: B).Pairwise (fun a b => keyLt a b = true)) :
    (A ++ x :: B).filter (fun k => keyLt x k) = B := by
  rw [List.pairwise_append] at h
  obtain ⟨_, hxB, hA⟩ := h
  rw [List.pairwise_cons] at hxB
  rw [List.filter_append, List.filter_cons, keyLt_irrefl]
  have h1 : A.filter (fun k => keyLt x k) = [] := by
    rw [List.filter_eq_nil_iff]
    intro a ha
    rw [keyLt_asymm a x (hA a ha x (List.mem_cons_self _ _))]
    simp
  have h2 : B.filter (fun k => keyLt x k) = B := by
    rw [List.filter_eq_self]
    intro b hb
    exact hxB.1 b hb
  simp [h1, h2]


theorem decodeInfo_eq (o : ObjectInfo) (p : AllPathParams) (hs : isInfo o = true)
    (hp : parseMinioKey o = some (.ok p)) : decodeInfo o = some p := by
  have hs2 : HasSuffix o.Key ".info".toList = true := hs
  unfold decodeInfo
  rw [if_pos hs2, hp]

theorem fetchLoop_decodable (objs : List ObjectInfo) :
    ∀ (n : Nat) (res : List AllPathParams) (lk : GoString),
      (∀ o ∈ objs, isInfo o = true → ∃ p, parseMinioKey o = some (.ok p)) →
      fetchLoop objs ((n : Int) + 1) res lk =
        some (res ++ ((objs.filter isInfo).take (n + 1)).filterMap decodeInfo,
              lastKeyOf lk ((objs.filter isInfo).take (n + 1))) := by
  induction objs with
  | nil => intro n res lk _; simp [fetchLoop, lastKeyOf]
  | cons o os ih =>
    intro n res lk hd
    have hd2 : ∀ q ∈ os, isInfo q = true → ∃ p, parseMinioKey q = some (.ok p) :=
      fun q hq => hd q (List.mem_cons_of_mem _ hq)
    have hk : HasSuffix o.Key ".info".toList = isInfo o := rfl
    rw [fetchLoop, hk]
    by_cases hs : isInfo o = true
    · obtain ⟨p, hp⟩ := hd o (List.mem_cons_self _ _) hs
      have hdec : decodeInfo o = some p := decodeInfo_eq o p hs hp
      rw [List.filter_cons, if_pos hs]
      simp only [hs, Bool.not_true, Bool.false_eq_true, if_false, hp, List.take_succ_cons,
        List.filterMap_cons, hdec, lastKeyOf]
      cases n with
      | zero => simp [lastKeyOf]
      | succ n =>
        rw [if_neg (by push_cast; omega)]
        have e : ((n + 1 : Nat) : Int) + 1 - 1 = (n : Int) + 1 := by push_cast; omega
        rw [e, ih n _ _ hd2]
        simp
    · have hs2 : isInfo o = false := by simpa using hs
      rw [List.filter_cons, if_neg hs]
      simp only [hs2, Bool.not_false, if_true]
      exact ih n res lk hd2

theorem length_filterMap_decodeInfo (l : List ObjectInfo)
    (h : ∀ o ∈ l, ∃ p, decodeInfo o = some p) : (l.filterMap decodeInfo).length = l.length := by
  induction l with
  | nil => rfl
  | cons o os ih =>
    obtain ⟨p, hp⟩ := h o (List.mem_cons_self _ _)
    simp [List.filterMap_cons, hp, ih (fun q hq => h q (List.mem_cons_of_mem _ hq))]

theorem decodeInfo_of_decodable (objs : List ObjectInfo)
    (hd : ∀ o ∈ objs, isInfo o = true → ∃ p, parseMinioKey o = some (.ok p)) :
    ∀ o ∈ objs.filter isInfo, ∃ p, decodeInfo o = some p := by
  intro o ho
  rw [List.mem_filter] at ho
  obtain ⟨p, hp⟩ := hd o ho.1 ho.2
  exact ⟨p, decodeInfo_eq o p ho.2 hp⟩

/-- One `Catalog` call over an untruncated answer: a single native call, the
first `pageSize` decodable entries, and the last accepted key as cursor when
the page was filled. -/
theorem Catalog_untruncated (list : ListObjectsV2) (c : GoString) (objs : List ObjectInfo)
    (f q : Nat) (hl : list 0 c = .ok ⟨objs, false⟩)
    (hd : ∀ o ∈ objs, isInfo o = true → ∃ p, parseMinioKey o = some (.ok p)) :
    Catalog list (f + 1) c ((q : Int) + 1) =
      .ret (.ok (((objs.filter isInfo).take (q + 1)).filterMap decodeInfo,
        if q + 1 ≤ (objs.filter isInfo).length then
          lastKeyOf [] ((objs.filter isInfo).take (q + 1))
        else [])) := by
  have hlen := length_filterMap_decodeInfo ((objs.filter isInfo).take (q + 1))
    (fun o ho => decodeInfo_of_decodable objs hd o (List.mem_of_mem_take ho))
  rw [Catalog, catalogLoop, if_pos (by omega), hl]
  simp only [fetchModsAndVersions, fetchLoop_decodable objs q [] [] hd, List.nil_append,
    Bool.not_false, if_true, hlen, List.length_take]
  by_cases hle : q + 1 ≤ (objs.filter isInfo).length
  · rw [if_pos hle, if_neg (by rw [min_eq_left hle]; push_cast; omega)]
  · rw [if_neg hle, if_pos (by rw [min_eq_right (by omega)]; omega)]

theorem lastKeyOf_append_singleton (l : List ObjectInfo) (o : ObjectInfo) :
    ∀ lk, lastKeyOf lk (l ++ [o]) = o.Key := by
  induction l with
  | nil => intro lk; rfl
  | cons a as ih => intro lk; exact ih a.Key


theorem isInfo_batch (keys : List GoString) (c : GoString) :
    ((keys.filter (fun k => keyLt c k)).map ObjectInfo.mk).filter isInfo =
      ((keys.filter (fun k => HasSuffix k ".info".toList)).filter
        (fun k => keyLt c k)).map ObjectInfo.mk := by
  rw [List.filter_map, List.filter_filter, List.filter_filter]
  congr 1
  apply List.filter_congr
  intro k _
  simp only [Function.comp, isInfo, Bool.and_comm]

theorem decodable_batch (keys : List GoString) (c : GoString)
    (hdec : ∀ k ∈ keys.filter (fun k => HasSuffix k ".info".toList),
      ∃ p, parseMinioKey ⟨k⟩ = some (.ok p)) :
    ∀ o ∈ (keys.filter (fun k => keyLt c k)).map ObjectInfo.mk, isInfo o = true →
      ∃ p, parseMinioKey o = some (.ok p) := by
  intro o ho hs
  rw [List.mem_map] at ho
  obtain ⟨k, hk, rfl⟩ := ho
  exact hdec k (List.mem_filter.2 ⟨(List.mem_filter.1 hk).1, hs⟩)

theorem ne_nil_of_HasSuffix_info (k : GoString) (h : HasSuffix k ".info".toList = true) :
    k ≠ [] := by
  rintro rfl
  revert h
  decide

theorem take_succ_of_lt (S : List GoString) (q : Nat) (h : q < S.length) :
    S.take (q + 1) = S.take q ++ [S.get ⟨q, h⟩] ∧
      S = S.take q ++ S.get ⟨q, h⟩ :: S.drop (q + 1) := by
  constructor
  · rw [List.take_succ, List.getElem?_eq_getElem h]
    rfl
  · conv_lhs => rw [← List.take_append_drop q S, List.drop_eq_getElem_cons h]
    rfl

/-- Chaining `Catalog` over an untruncated ordered listing: from a cursor that
leaves the version descriptors `S` to be listed, the chain returns the
decodings of `S` in order, in pages of `q + 1` entries followed by a last,
shorter page with the empty cursor. -/
theorem catalogChain_untruncated (keys : List GoString) (list : ListObjectsV2) (f q : Nat)
    (hlist : ∀ i sa, list i sa =
      .ok ⟨(keys.filter (fun k => keyLt sa k)).map ObjectInfo.mk, false⟩)
    (hsorted : (keys.filter (fun k => HasSuffix k ".info".toList)).Pairwise
      (fun a b => keyLt a b = true))
    (hdec : ∀ k ∈ keys.filter (fun k => HasSuffix k ".info".toList),
      ∃ p, parseMinioKey ⟨k⟩ = some (.ok p)) :
    ∀ (calls : Nat) (A S : List GoString) (c : GoString),
      keys.filter (fun k => HasSuffix k ".info".toList) = A ++ S →
      (keys.filter (fun k => HasSuffix k ".info".toList)).filter (fun k => keyLt c k) = S →
      S.length < calls * (q + 1) →
      ∃ pages, catalogChain list (f + 1) ((q : Int) + 1) calls c = some pages ∧
        (pages.map Prod.fst).flatten = (S.map ObjectInfo.mk).filterMap decodeInfo ∧
        pages.map (fun pg => pg.1.length) =
          List.replicate (S.length / (q + 1)) (q + 1) ++ [S.length % (q + 1)] ∧
        pages.getLast?.map Prod.snd = some [] := by
  intro calls
  induction calls with
  | zero => intro A S c _ _ h; simp at h
  | succ calls ih =>
    intro A S c hK hS hlen
    have hcat := Catalog_untruncated list c _ f q (hlist 0 c) (decodable_batch keys c hdec)
    rw [isInfo_batch, hS] at hcat
    have hSdec : ∀ o ∈ S.map ObjectInfo.mk, ∃ p, decodeInfo o = some p := by
      intro o ho
      rw [List.mem_map] at ho
      obtain ⟨k, hk, rfl⟩ := ho
      have hkK : k ∈ keys.filter (fun k => HasSuffix k ".info".toList) := by
        rw [hK]; exact List.mem_append_right _ hk
      obtain ⟨p, hp⟩ := hdec k hkK
      exact ⟨p, decodeInfo_eq _ p (List.mem_filter.1 hkK).2 hp⟩
    rw [catalogChain, hcat]
    simp only [List.length_map]
    by_cases hle : q + 1 ≤ S.length
    · have hq : q < S.length := by omega
      obtain ⟨ht, hsplit⟩ := take_succ_of_lt S q hq
      have hxK : S.get ⟨q, hq⟩ ∈ keys.filter (fun k => HasSuffix k ".info".toList) := by
        rw [hK]; exact List.mem_append_right _ (List.get_mem S q hq)
      have hxne : S.get ⟨q, hq⟩ ≠ [] :=
        ne_nil_of_HasSuffix_info _ (List.mem_filter.1 hxK).2
      have hcur : lastKeyOf [] (List.take (q + 1) (S.map ObjectInfo.mk)) = S.get ⟨q, hq⟩ := by
        rw [← List.map_take, ht, List.map_append, List.map_singleton,
          lastKeyOf_append_singleton]
      have hK2 : keys.filter (fun k => HasSuffix k ".info".toList) =
          (A ++ S.take q) ++ S.get ⟨q, hq⟩ :: S.drop (q + 1) := by
        rw [List.append_assoc, ← hsplit, hK]
      have hfilter : (keys.filter (fun k => HasSuffix k ".info".toList)).filter
          (fun k => keyLt (S.get ⟨q, hq⟩) k) = S.drop (q + 1) := by
        have hs2 := hsorted
        rw [hK2] at hs2 ⊢
        exact filter_keyLt_sorted _ _ _ hs2
      have hK3 : keys.filter (fun k => HasSuffix k ".info".toList) =
          (A ++ S.take (q + 1)) ++ S.drop (q + 1) := by
        rw [List.append_assoc, List.take_append_drop, hK]
      have hlen2 : (S.drop (q + 1)).length < calls * (q + 1) := by
        rw [List.length_drop]
        have : (calls + 1) * (q + 1) = calls * (q + 1) + (q + 1) := by ring
        omega
      obtain ⟨rest, hrest, hflat, hsizes, hlast⟩ :=
        ih (A ++ S.take (q + 1)) (S.drop (q + 1)) (S.get ⟨q, hq⟩) hK3 hfilter hlen2
      rw [if_pos hle, hcur]
      simp only [hxne, if_false, hrest, Option.map_some']
      refine ⟨_, rfl, ?_, ?_, ?_⟩
      · simp only [List.map_cons, List.flatten_cons, hflat]
        rw [← List.filterMap_append, ← List.map_take, ← List.map_append,
          List.take_append_drop]
      · have hpl : (List.filterMap decodeInfo
            (List.take (q + 1) (S.map ObjectInfo.mk))).length = q + 1 := by
          rw [length_filterMap_decodeInfo _ (fun o ho => hSdec o (List.mem_of_mem_take ho)),
            List.length_take, List.length_map, min_eq_left hle]
        simp only [List.map_cons, hsizes, hpl, List.length_drop]
        rw [Nat.div_eq_sub_div (Nat.succ_pos q) hle, Nat.mod_eq_sub_mod hle,
          List.replicate_succ, List.cons_append]
      · cases rest with
        | nil => simp at hlast
        | cons r rs => simpa using hlast
    · have hlt : S.length < q + 1 := by omega
      rw [if_neg hle]
      simp only [if_true]
      refine ⟨_, rfl, ?_, ?_, ?_⟩
      · simp only [List.map_cons, List.map_nil, List.flatten_cons, List.flatten_nil,
          List.append_nil]
        rw [List.take_of_length_le (by simp; omega)]
      · simp only [List.map_cons, List.map_nil]
        rw [List.take_of_length_le (by simp; omega),
          length_filterMap_decodeInfo _ hSdec, List.length_map, Nat.div_eq_of_lt hlt,
          Nat.mod_eq_of_lt hlt]
        rfl
      · rfl


theorem listStore_untruncated (maxKeys : Nat) (keys : List GoString)
    (h : keys.length ≤ maxKeys) (i : Nat) (sa : GoString) :
    listStore maxKeys keys i sa =
      .ok ⟨(keys.filter (fun k => keyLt sa k)).map ObjectInfo.mk, false⟩ := by
  have hl : (keys.filter (fun k => keyLt sa k)).length ≤ maxKeys :=
    le_trans (List.length_filter_le _ _) h
  unfold listStore
  rw [List.take_of_length_le hl]
  have hd : decide (maxKeys < (keys.filter (fun k => keyLt sa k)).length) = false := by
    simp only [decide_eq_false_iff_not]; omega
  rw [hd]

theorem filterMap_decodeInfo_versions (module : GoString) (hm : module ≠ [])
    (hma : '@' ∉ module) (l : List Nat) :
    ((l.map (fun i => infoKey module (versionName (i + 1)))).map ObjectInfo.mk).filterMap
      decodeInfo = l.map (fun i => ⟨module, versionName (i + 1)⟩) := by
  induction l with
  | nil => rfl
  | cons i l ih =>
    have hd : decodeInfo ⟨infoKey module (versionName (i + 1))⟩ =
        some ⟨module, versionName (i + 1)⟩ :=
      decodeInfo_eq _ _ (HasSuffix_infoKey _ _) (parseMinioKey_versionName module (i + 1) hm hma)
    simp only [List.map_cons, List.filterMap_cons, hd, ih]

/-- C2 (chained catalog over an untruncated listing): let the store list its
keys in strictly increasing key order, let its `.info` keys be exactly
`module/@v/v1.info`, ..., `module/@v/vn.info` for a non-empty module path
without `@`, and let every native call answer with all keys after `startAfter`
in one batch, not truncated. Then for `p ≥ 1` the chain of `Catalog` calls from
the empty cursor ends, after `n / p + 1` calls: `n / p` pages of `p` entries and
a last page of `n % p` entries with the empty cursor; the pages together hold
each of the `n` versions exactly once. -/
theorem chained_catalog_untruncated (module : GoString) (n p : Nat) (keys : List GoString)
    (list : ListObjectsV2) (fuel calls : Nat)
    (hm : module ≠ []) (hma : '@' ∉ module) (hp : 1 ≤ p)
    (hsorted : keys.Pairwise (fun a b => keyLt a b = true))
    (hstore : (keys.filter (fun k => HasSuffix k ".info".toList)).Perm
      ((List.range n).map (fun i => infoKey module (versionName (i + 1)))))
    (hlist : ∀ i sa, list i sa =
      .ok ⟨(keys.filter (fun k => keyLt sa k)).map ObjectInfo.mk, false⟩)
    (hfuel : 1 ≤ fuel) (hcalls : n / p + 1 ≤ calls) :
    ∃ pages, catalogChain list fuel (p : Int) calls [] = some pages ∧
      ((pages.map Prod.fst).flatten).Perm
        ((List.range n).map (fun i => ⟨module, versionName (i + 1)⟩)) ∧
      ((pages.map Prod.fst).flatten).Nodup ∧
      pages.map (fun pg => pg.1.length) = List.replicate (n / p) p ++ [n % p] ∧
      pages.getLast?.map Prod.snd = some [] := by
  obtain ⟨q, rfl⟩ : ∃ q, p = q + 1 := ⟨p - 1, by omega⟩
  obtain ⟨f, rfl⟩ : ∃ f, fuel = f + 1 := ⟨fuel - 1, by omega⟩
  have hKs : (keys.filter (fun k => HasSuffix k ".info".toList)).Pairwise
      (fun a b => keyLt a b = true) := hsorted.sublist (List.filter_sublist _)
  have hdec : ∀ k ∈ keys.filter (fun k => HasSuffix k ".info".toList),
      ∃ e, parseMinioKey ⟨k⟩ = some (.ok e) := by
    intro k hk
    have hk2 := hstore.mem_iff.1 hk
    rw [List.mem_map] at hk2
    obtain ⟨i, _, rfl⟩ := hk2
    exact ⟨_, parseMinioKey_versionName module (i + 1) hm hma⟩
  have hall : (keys.filter (fun k => HasSuffix k ".info".toList)).filter
      (fun k => keyLt [] k) = keys.filter (fun k => HasSuffix k ".info".toList) := by
    rw [List.filter_eq_self]
    intro k hk
    exact keyLt_nil k (ne_nil_of_HasSuffix_info k (List.mem_filter.1 hk).2)
  have hlenK : (keys.filter (fun k => HasSuffix k ".info".toList)).length = n := by
    rw [hstore.length_eq, List.length_map, List.length_range]
  have hbound : (keys.filter (fun k => HasSuffix k ".info".toList)).length <
      calls * (q + 1) := by
    rw [hlenK]
    exact Nat.lt_mul_of_div_lt (Nat.lt_of_lt_of_le (Nat.lt_succ_self _) hcalls)
      (Nat.succ_pos q)
  obtain ⟨pages, hpages, hflat, hsizes, hlast⟩ :=
    catalogChain_untruncated keys list f q hlist hKs hdec calls []
      (keys.filter (fun k => HasSuffix k ".info".toList)) [] (by simp) hall hbound
  have hperm : ((pages.map Prod.fst).flatten).Perm
      ((List.range n).map (fun i => ⟨module, versionName (i + 1)⟩)) := by
    rw [hflat, ← filterMap_decodeInfo_versions module hm hma]
    exact (hstore.map ObjectInfo.mk).filterMap decodeInfo
  have hnodupK : (keys.filter (fun k => HasSuffix k ".info".toList)).Nodup := by
    refine List.Pairwise.imp ?_ hKs
    intro a b hab e
    rw [e, keyLt_irrefl] at hab
    exact absurd hab (by simp)
  have hnodup : ((List.range n).map
      (fun i => (⟨module, versionName (i + 1)⟩ : AllPathParams))).Nodup := by
    have h1 : ((List.range n).map (fun i => infoKey module (versionName (i + 1)))).Nodup :=
      hstore.nodup_iff.1 hnodupK
    have h2 : ((List.range n).map
        (fun i => (⟨module, versionName (i + 1)⟩ : AllPathParams))).map
        (fun e => infoKey e.Module e.Version) =
        (List.range n).map (fun i => infoKey module (versionName (i + 1))) := by
      rw [List.map_map]; rfl
    rw [← h2] at h1
    exact List.Nodup.of_map _ h1
  refine ⟨pages, ?_, hperm, hperm.nodup_iff.2 hnodup, ?_, hlast⟩
  · rw [← hpages]; push_cast; rfl
  · rw [hsizes, hlenK]

/-- Witness for C2: module `m`, versions `v1` to `v5` with their `.mod` and
`.zip` objects, page size 2: three calls returning 2, 2 and 1 entries, the
last with the empty cursor. -/
theorem chained_catalog_untruncated_witness :
    catalogChain (listStore 1000 storeFive) 1 2 3 [] =
      some [([⟨"m".toList, "v1".toList⟩, ⟨"m".toList, "v2".toList⟩], "m/@v/v2.info".toList),
            ([⟨"m".toList, "v3".toList⟩, ⟨"m".toList, "v4".toList⟩], "m/@v/v4.info".toList),
            ([⟨"m".toList, "v5".toList⟩], [])] ∧
    ∃ pages, catalogChain (listStore 1000 storeFive) 1 ((2 : Nat) : Int) 3 [] = some pages ∧
      ((pages.map Prod.fst).flatten).Perm
        ((List.range 5).map (fun i => ⟨"m".toList, versionName (i + 1)⟩)) ∧
      ((pages.map Prod.fst).flatten).Nodup ∧
      pages.map (fun pg => pg.1.length) = List.replicate (5 / 2) 2 ++ [5 % 2] ∧
      pages.getLast?.map Prod.snd = some [] :=
  ⟨by decide,
   chained_catalog_untruncated "m".toList 5 2 storeFive (listStore 1000 storeFive) 1 3
    (by decide) (by decide) (by decide) (by decide) (List.Perm.of_eq (by decide))
    (listStore_untruncated 1000 storeFive (by decide)) (by decide) (by decide)⟩

end Athens.minio
